import Mathlib

/-!
Shallow embedding of `src/pogom/search.py` (repository `clvvscan`).

Conventions of the embedding:
* Python numbers (ints and floats) are modelled as `ℤ` or `ℚ`; the Python
  float modulo `x % m` (sign of the divisor) is `qmod` below.
* `float('inf')` appearing in the assigner's cost tuples is modelled by
  `WithTop ℚ` (`⊤` is infinity); Python's lexicographic tuple comparison is
  `scoreLt` below.
* The geodesic distance computed by the external `geopy` library is a
  parameter `dist : Spawn → Spawn → ℚ` of the assigner; the great-circle
  projection computed by `math.sin`/`math.cos` inside `get_new_coords` is a
  parameter `gnc` of the step generator, and the irrational constant
  `math.sqrt(3)` a parameter `sqrt3`.  All control flow, arithmetic and data
  handling of the Python code itself is embedded exactly.
* Python dictionaries `{lat, lng, time[, worker]}` are the structure `Spawn`.
-/

set_option maxRecDepth 10000

namespace PogomSearch

/-! ## `timeDif` (search.py lines 124-130)

    def timeDif(a, b):
        dif = a - b
        if (dif < -1800):
            dif += 3600
        if (dif > 1800):
            dif -= 3600
        return dif
-/

def timeDif (a b : ℤ) : ℤ :=
  let dif := a - b
  let dif := if dif < -1800 then dif + 3600 else dif
  let dif := if dif > 1800 then dif - 3600 else dif
  dif

/-! ## `SbSearch` (search.py lines 134-143)

    def SbSearch(Slist, T):
        first = 0
        last = len(Slist) - 1
        while first < last:
            mp = (first + last) // 2
            if Slist[mp]['time'] < T:
                first = mp + 1
            else:
                last = mp
        return first

`Slist` holds spawn dicts; only the `'time'` field is read, so the search is
embedded over the list of times. -/

def sbAux (ts : List ℚ) (T : ℚ) (first last : ℕ) : ℕ :=
  if first < last then
    let mp := (first + last) / 2
    if ts.getD mp 0 < T then sbAux ts T (mp + 1) last
    else sbAux ts T first mp
  else first
termination_by last - first
decreasing_by all_goals omega

def SbSearch (ts : List ℚ) (T : ℚ) : ℕ := sbAux ts T 0 (ts.length - 1)

/-! ## Worker cooldown loop (search.py lines 624-631 and 722-729)

    # Sleep for 2 hours, print a log message every 5 minutes.
    long_sleep_time = 0
    while long_sleep_time < (2 * 60 * 20):
        log.error(...)            -- heartbeat
        long_sleep_time += 300
        time.sleep(300)

`cooldownLoop t` is the list of the durations of the `time.sleep` calls the
loop performs when entered with `long_sleep_time = t`; each list entry is one
heartbeat followed by one sleep. -/

def cooldownLoop (t : ℕ) : List ℕ :=
  if t < 2 * 60 * 20 then 300 :: cooldownLoop (t + 300) else []
termination_by 2 * 60 * 20 - t
decreasing_by omega

def cooldownSleeps : List ℕ := cooldownLoop 0

/-! ## `check_login` retry loop (search.py lines 782-800)

    i = 0
    while i < args.login_retries:
        try:
            api.set_authentication(...)
            break
        except AuthException:
            if i >= args.login_retries:
                raise TooManyLoginAttempts('Exceeded login attempts')
            else:
                i += 1
                log.error(...); time.sleep(args.login_delay)
    log.debug('Login for account %s successful', ...)

`auth_ok n` tells whether the `n`-th `set_authentication` attempt succeeds
(`false` = it raises `AuthException`).  The loop either breaks out
(`loggedIn`), raises (`raisedTooMany`), or exhausts the `while` guard and
falls through to the final debug line, returning normally (`fellThrough`). -/

inductive LoginOutcome where
  | loggedIn
  | raisedTooMany
  | fellThrough
deriving DecidableEq, Repr

def check_login_loop (login_retries : ℕ) (auth_ok : ℕ → Bool) (i : ℕ) : LoginOutcome :=
  if i < login_retries then
    if auth_ok i then .loggedIn
    else
      if i ≥ login_retries then .raisedTooMany
      else check_login_loop login_retries auth_ok (i + 1)
  else .fellThrough
termination_by login_retries - i
decreasing_by omega

/-! ## Spawn-scan worker: stale-job gate (search.py lines 708-766)

    step, step_location, spawntime = search_items_queue.get()
    ...
    if timeDif(curSec(), spawntime) < 840:  # if we arnt 14mins too late
        api.set_position(*step_location)
        ... scan/retry loop ...
    else:
        search_items_queue.task_done()
        log.info('Cant keep up. Skipping')
        status['skip'] += 1
        status['message'] = "Skipping spawnpoint - can't keep up."

The scan/retry body is abstracted as the action `scanned`; the claim only
concerns which branch runs and the `skip` counter. -/

structure WStatus where
  success : ℕ
  fail : ℕ
  noitems : ℕ
  skip : ℕ
deriving DecidableEq, Repr

inductive SSAction where
  | scanned
  | skipped
deriving DecidableEq, Repr

def ss_handle_item (now spawntime : ℤ) (st : WStatus) : SSAction × WStatus :=
  if timeDif now spawntime < 840 then (.scanned, st)
  else (.skipped, { st with skip := st.skip + 1 })

/-! ## `generate_location_steps` (search.py lines 68-106)

The generator yields the initial location, then walks hexagonal rings
`ring = 1, ..., step_count - 1`, each ring starting one row north and half a
column west of the previous ring's final location and emitting `6 * ring`
points (6 directions, `ring` repeats each).  The great-circle step
`get_new_coords` (trigonometric, external math) is the parameter `gnc`;
`math.sqrt(3)` is the parameter `sqrt3`.  Locations are (lat, lng) pairs and
each yielded item is `(lat, lng, 0)` exactly as in the Python. -/

/-- Bearings used by the generator (degrees). -/
def NORTH : ℚ := 0
def EAST : ℚ := 90
def SOUTH : ℚ := 180
def WEST : ℚ := 270

/-- One iteration of the inner `for i in range(ring)` body: the six
`if direction == k` blocks (`direction` is a single value in `0..5`, so the
sequential `if`s act as a case split). -/
def dirStep (gnc : ℚ × ℚ → ℚ → ℚ → ℚ × ℚ) (xdist ydist : ℚ) (direction : ℕ)
    (loc : ℚ × ℚ) : ℚ × ℚ :=
  if direction = 0 then gnc loc xdist EAST
  else if direction = 1 then gnc (gnc loc ydist SOUTH) (xdist / 2) EAST
  else if direction = 2 then gnc (gnc loc ydist SOUTH) (xdist / 2) WEST
  else if direction = 3 then gnc loc xdist WEST
  else if direction = 4 then gnc (gnc loc ydist NORTH) (xdist / 2) WEST
  else if direction = 5 then gnc (gnc loc ydist NORTH) (xdist / 2) EAST
  else loc

/-- One ring: reposition to the top-left, then
`for direction in range(6): for i in range(ring): ... yield (loc[0], loc[1], 0)`.
Returns the final location (the loop variable `loc` is carried into the next
ring) together with the yielded points. -/
def ringPoints (gnc : ℚ × ℚ → ℚ → ℚ → ℚ × ℚ) (xdist ydist : ℚ)
    (loc : ℚ × ℚ) (ring : ℕ) : (ℚ × ℚ) × List (ℚ × ℚ × ℚ) :=
  let start := gnc (gnc loc ydist NORTH) (xdist / 2) WEST
  ((List.range 6).flatMap (fun d => List.replicate ring d)).foldl
    (fun acc d =>
      let loc2 := dirStep gnc xdist ydist d acc.1
      (loc2, acc.2 ++ [(loc2.1, loc2.2, 0)]))
    (start, [])

/-- The `while ring < step_count` loop. -/
def ringLoop (gnc : ℚ × ℚ → ℚ → ℚ → ℚ × ℚ) (xdist ydist : ℚ)
    (loc : ℚ × ℚ) (ring step_count : ℕ) : List (ℚ × ℚ × ℚ) :=
  if ring < step_count then
    let r := ringPoints gnc xdist ydist loc ring
    r.2 ++ ringLoop gnc xdist ydist r.1 (ring + 1) step_count
  else []
termination_by step_count - ring
decreasing_by omega

def generate_location_steps (gnc : ℚ × ℚ → ℚ → ℚ → ℚ × ℚ) (sqrt3 : ℚ)
    (initial_loc : ℚ × ℚ) (step_count : ℕ) (step_distance : ℚ) :
    List (ℚ × ℚ × ℚ) :=
  let pulse_radius := step_distance
  let xdist := sqrt3 * pulse_radius
  let ydist := 3 * (pulse_radius / 2)
  (initial_loc.1, initial_loc.2, 0) ::
    ringLoop gnc xdist ydist initial_loc 1 step_count

/-! ## The spawn assigner (search.py lines 439-567)

`assign_spawns(spawns, num_workers, scan_delay, max_speed, max_delay)` and its
inner helpers `speed`, `insert`, `greedy_assign`.  Spawn dicts are the
structure `Spawn` (the `worker` key is absent on input, `none` here).  The
geodesic `dist` (geopy) is a parameter.  Cost tuples
`(delay, s0, s1, s2)` built from floats and `float('inf')` are `Score`
(4-tuples of `WithTop ℚ`), compared exactly as Python compares tuples:
lexicographically. -/

structure Spawn where
  lat : ℚ
  lng : ℚ
  time : ℚ
  worker : Option ℕ := none
deriving DecidableEq, Repr

/-- Python float modulo with a positive divisor: `x % m = x - m * ⌊x / m⌋`. -/
def qmod (x m : ℚ) : ℚ := x - m * ⌊x / m⌋

abbrev Score := WithTop ℚ × WithTop ℚ × WithTop ℚ × WithTop ℚ

/-- Python lexicographic `<` on the 4-tuples. -/
def scoreLt (a b : Score) : Bool :=
  if a.1 < b.1 then true
  else if b.1 < a.1 then false
  else if a.2.1 < b.2.1 then true
  else if b.2.1 < a.2.1 then false
  else if a.2.2.1 < b.2.2.1 then true
  else if b.2.2.1 < a.2.2.1 then false
  else decide (a.2.2.2 < b.2.2.2)

/-- Python `<` on the pairs `(score, worker_index)` compared by `min`. -/
def scoredLt (a b : Score × ℕ) : Bool :=
  if scoreLt a.1 b.1 then true
  else if scoreLt b.1 a.1 then false
  else decide (a.2 < b.2)

/-- One step of Python `min`: keep the strictly smaller of the running
minimum and the next element (ties keep the earlier element, as `min` does). -/
def minFold (acc : Option (Score × ℕ)) (x : Score × ℕ) : Option (Score × ℕ) :=
  match acc with
  | none => some x
  | some best => if scoredLt x best then some x else some best

/-- Python `min` over a list of `(score, index)` pairs: the first element that
is minimal (`none` on the empty list, where Python raises `ValueError`). -/
def minScored (l : List (Score × ℕ)) : Option (Score × ℕ) :=
  l.foldl minFold none

/-- Default used with `List.getD`; every reachable access is in bounds. -/
def sp0 : Spawn := ⟨0, 0, 0, none⟩

def getQ (q : List Spawn) (i : ℕ) : Spawn := q.getD i sp0

/-!
    def speed(sp1, sp2):
        time = max((sp2['time'] - sp1['time']) % 3600, scan_delay)
        if time == 0:
            return float('inf')
        else:
            return dist(sp1, sp2) / time
-/

def speed (dist : Spawn → Spawn → ℚ) (scan_delay : ℚ) (sp1 sp2 : Spawn) :
    WithTop ℚ :=
  let t := max (qmod (sp2.time - sp1.time) 3600) scan_delay
  if t = 0 then ⊤ else ((dist sp1 sp2 / t : ℚ) : WithTop ℚ)

/-- The slot `k` at which `insert` places `sp`:
`l = [p['time'] <= sp['time'] for p in queue]`,
`k = l.index(False) if False in l else len(l)`. -/
def insertSlot (queue : List Spawn) (sp : Spawn) : ℕ :=
  queue.findIdx (fun p => decide (sp.time < p.time))

/-- `i = (k - 1) % len(queue)`, the previous point index (Python `%` on the
`-1` of slot 0 wraps to the last index). -/
def predIdx (queue : List Spawn) (sp : Spawn) : ℕ :=
  (insertSlot queue sp + queue.length - 1) % queue.length

/-- `j = k % len(queue)`, the next point index. -/
def succIdx (queue : List Spawn) (sp : Spawn) : ℕ :=
  insertSlot queue sp % queue.length

/-!
    def insert(queue, sp, dry):
        sp = dict(sp)
        if len(queue) == 0:
            if not dry: queue.append(sp)
            return 0, max_speed, max_speed, max_speed
        l = [True if p['time'] <= sp['time'] else False for p in queue]
        k = l.index(False) if False in l else len(l)
        i = (k - 1) % len(queue)
        j = k % len(queue)
        sp['time'] = max(sp['time'], queue[i]['time'] + scan_delay)
        s1 = speed(queue[i], sp)
        s2 = speed(sp, queue[j])
        if i != j and (queue[j]['time'] - queue[i]['time']) % 3600 < 2 * scan_delay:
            score = (float('inf'), 0, 0, 0)
        elif s1 <= max_speed and s2 <= max_speed:
            score = (0, max(s1, s2), s1, s2)
        elif s2 > max_speed:
            score = (float('inf'), 0, 0, 0)
        else:
            time2wait = (dist(queue[i], sp) / max_speed) - (sp['time'] - queue[i]['time'])
            if time2wait > (sp['time'] - queue[j]['time']) % 3600:
                score = (float('inf'), 0, 0, 0)
            else:
                sp['time'] += time2wait
                s1 = max_speed
                s2 = speed(sp, queue[j])
                score = (time2wait, max(s1, s2), s1, s2)
        if not dry and score[0] < float('inf'):
            queue.insert(k, sp)
        return score

The dry and non-dry runs compute the same score deterministically, so the
embedding returns both the score and the queue the non-dry call leaves behind
(`queue.insert(k, sp)` happens exactly when `score[0] < float('inf')`). -/

def insert (dist : Spawn → Spawn → ℚ) (scan_delay max_speed : ℚ)
    (queue : List Spawn) (sp : Spawn) : Score × List Spawn :=
  if queue.length = 0 then
    (((0 : ℚ), (max_speed : ℚ), (max_speed : ℚ), (max_speed : ℚ)), [sp])
  else
    let k := insertSlot queue sp
    let i := predIdx queue sp
    let j := succIdx queue sp
    let sp1 : Spawn := { sp with time := max sp.time ((getQ queue i).time + scan_delay) }
    let s1 := speed dist scan_delay (getQ queue i) sp1
    let s2 := speed dist scan_delay sp1 (getQ queue j)
    if i ≠ j ∧ qmod ((getQ queue j).time - (getQ queue i).time) 3600 < 2 * scan_delay then
      ((⊤, 0, 0, 0), queue)
    else if s1 ≤ (max_speed : WithTop ℚ) ∧ s2 ≤ (max_speed : WithTop ℚ) then
      (((0 : ℚ), max s1 s2, s1, s2), queue.insertIdx k sp1)
    else if (max_speed : WithTop ℚ) < s2 then
      ((⊤, 0, 0, 0), queue)
    else
      let time2wait := dist (getQ queue i) sp1 / max_speed - (sp1.time - (getQ queue i).time)
      if time2wait > qmod (sp1.time - (getQ queue j).time) 3600 then
        ((⊤, 0, 0, 0), queue)
      else
        let sp2 : Spawn := { sp1 with time := sp1.time + time2wait }
        let s2b := speed dist scan_delay sp2 (getQ queue j)
        (((time2wait : ℚ), max (max_speed : WithTop ℚ) s2b, (max_speed : ℚ), s2b),
          queue.insertIdx k sp2)

/-- `spawns.sort(key=itemgetter('time'))`: a stable sort by the `time` field
(Python's sort is stable; so is insertion sort). -/
def sortByTime (l : List Spawn) : List Spawn :=
  List.insertionSort (fun a b => a.time ≤ b.time) l

/-- One iteration of `greedy_assign`'s `for sp in spawns` body over the state
`(Q, delays, bad)`:

    scores = [(insert(q, sp, True), i) for i, q in enumerate(Q)]
    min_score, min_index = min(scores)
    delay, s0, s1, s2 = min_score
    if delay <= max_delay:
        insert(Q[min_index], sp, False)
        if delay > 0: delays.append(delay)
    else:
        bad.append(sp)

(`enumerate(Q)` is embedded as indices `List.range Q.length`; on an empty
`Q` Python's `min` raises, modelled by the unreachable `none` branch.) -/
def greedyStep (dist : Spawn → Spawn → ℚ) (scan_delay max_speed max_delay : ℚ)
    (st : List (List Spawn) × List (WithTop ℚ) × List Spawn) (sp : Spawn) :
    List (List Spawn) × List (WithTop ℚ) × List Spawn :=
  let Q := st.1
  let delays := st.2.1
  let bad := st.2.2
  let scores := (List.range Q.length).map
    (fun i => ((insert dist scan_delay max_speed (Q.getD i []) sp).1, i))
  match minScored scores with
  | none => (Q, delays, bad ++ [sp])
  | some ms =>
    if ms.1.1 ≤ (max_delay : WithTop ℚ) then
      (Q.set ms.2 (insert dist scan_delay max_speed (Q.getD ms.2 []) sp).2,
       delays ++ (if (0 : WithTop ℚ) < ms.1.1 then [ms.1.1] else []),
       bad)
    else (Q, delays, bad ++ [sp])

/-!
    def greedy_assign(spawns, n):
        spawns.sort(key=itemgetter('time'))
        Q = [[] for i in range(n)]
        delays = []
        bad = []
        for sp in spawns: ...
        return Q, delays, bad
-/
def greedy_assign (dist : Spawn → Spawn → ℚ) (scan_delay max_speed max_delay : ℚ)
    (spawns : List Spawn) (n : ℕ) :
    List (List Spawn) × List (WithTop ℚ) × List Spawn :=
  (sortByTime spawns).foldl (greedyStep dist scan_delay max_speed max_delay)
    (List.replicate n [], [], [])

/-- `for index, queue in enumerate(Q): for sp in queue: sp['worker'] = index`. -/
def tagWorkers (Q : List (List Spawn)) : List (List Spawn) :=
  (List.range Q.length).map
    (fun index => (Q.getD index []).map (fun sp => { sp with worker := some index }))

/-!
    def assign_spawns(spawns, num_workers, scan_delay, max_speed, max_delay):
        ...
        Q, delays, bad = greedy_assign(spawns, num_workers)
        ... logging only ...
        for index, queue in enumerate(Q):
            for sp in queue: sp['worker'] = index
        spawns = sum(Q, [])
        spawns.sort(key=itemgetter('time'))
        return spawns
-/
def assign_spawns (dist : Spawn → Spawn → ℚ) (spawns : List Spawn)
    (num_workers : ℕ) (scan_delay max_speed max_delay : ℚ) : List Spawn :=
  let r := greedy_assign dist scan_delay max_speed max_delay spawns num_workers
  sortByTime (tagWorkers r.1).flatten

/-! ## Concrete instances used by counterexamples and witnesses -/

/-- The geodesic distance (geopy, external) specialised to points on the
equator (`lat = 0`): proportional to the longitude difference, with
100000 m per degree (the true equatorial figure is about 111320 m per
degree; the exact constant is immaterial, it only scales speeds). -/
def lngDist (a b : Spawn) : ℚ := 100000 * |a.lng - b.lng|

/-- A distance function that is identically zero: all points at the same
coordinates (the geodesic distance between identical coordinates is 0). -/
def zeroDist (_ _ : Spawn) : ℚ := 0

/-! ## Theorems -/

/-- C5 counterexample: `timeDif(0, 1800) = -1800`, and `-1800` does not lie in
the half-open interval `(-1800, 1800]`, refuting the claimed range. -/
theorem timeDif_boundary_counterexample :
    timeDif 0 1800 = -1800 ∧ ¬(-1800 < timeDif 0 1800) := by decide

/-- C5 (amended): for all times past the hour `a, b ∈ [0, 3600)`, `timeDif a b`
lies in the closed interval `[-1800, 1800]` (both endpoints are attained), and
`timeDif a b = -timeDif b a` holds for all such `a, b`, with no boundary
exception. -/
theorem timeDif_range_antisym (a b : ℤ) (ha0 : 0 ≤ a) (ha : a < 3600)
    (hb0 : 0 ≤ b) (hb : b < 3600) :
    (-1800 ≤ timeDif a b ∧ timeDif a b ≤ 1800) ∧ timeDif a b = -timeDif b a := by
  simp only [timeDif]
  split_ifs <;> omega

/-- Witness for `timeDif_range_antisym` at `a = 0`, `b = 1800`. -/
theorem timeDif_range_antisym_witness :
    (-1800 ≤ timeDif 0 1800 ∧ timeDif 0 1800 ≤ 1800) ∧
      timeDif 0 1800 = -timeDif 1800 0 :=
  timeDif_range_antisym 0 1800 (by decide) (by decide) (by decide) (by decide)

/-- C2: the post-abandon cooldown performs exactly 8 sleeps of 300 seconds
(one heartbeat log/status message before each), totalling 2400 seconds =
40 minutes.  The loop bound is `2 * 60 * 20 = 2400`, so the total is not the
roughly 2 hours (7200 seconds) announced by the code's own comment, log
message, and the spec. -/
theorem cooldown_sleeps_total :
    cooldownSleeps = List.replicate 8 300 ∧
      cooldownSleeps.sum = 2400 ∧ cooldownSleeps.sum < 7200 := by
  have h : cooldownSleeps = [300, 300, 300, 300, 300, 300, 300, 300] := by
    rw [cooldownSleeps]
    rw [cooldownLoop]; norm_num
    rw [cooldownLoop]; norm_num
    rw [cooldownLoop]; norm_num
    rw [cooldownLoop]; norm_num
    rw [cooldownLoop]; norm_num
    rw [cooldownLoop]; norm_num
    rw [cooldownLoop]; norm_num
    rw [cooldownLoop]; norm_num
    rw [cooldownLoop]; norm_num
  rw [h]
  refine ⟨by rfl, by rfl, by norm_num⟩

/-- C3: if every `set_authentication` attempt raises `AuthException`, the
`check_login` retry loop exits by exhausting its `while i < login_retries`
guard and falls through to the normal return; the
`raise TooManyLoginAttempts` branch is guarded by `i >= login_retries`
inside a loop whose guard guarantees `i < login_retries`, so it never fires. -/
theorem check_login_all_fail_returns (login_retries i : ℕ) :
    check_login_loop login_retries (fun _ => false) i = LoginOutcome.fellThrough := by
  generalize hfuel : login_retries - i = n
  induction n generalizing i with
  | zero =>
    rw [check_login_loop]
    have : ¬ i < login_retries := by omega
    simp [this]
  | succ n ih =>
    rw [check_login_loop]
    by_cases hir : i < login_retries
    · have : ¬ i ≥ login_retries := by omega
      simp only [if_pos hir, Bool.false_eq_true, if_false, if_neg this]
      exact ih (i + 1) (by omega)
    · simp [hir]

/-- C6 counterexample: a job whose staleness `timeDif(now, spawntime)` is
exactly 840 seconds (14 minutes, not MORE than 14 minutes) is nevertheless
skipped — the code's gate is `timeDif(...) < 840`, so staleness 840 is
discarded, refuting the claim that a job not more than 14 minutes stale
proceeds to scanning. -/
theorem ss_boundary_counterexample :
    timeDif 840 0 = 840 ∧
      ss_handle_item 840 0 ⟨0, 0, 0, 0⟩ = (SSAction.skipped, ⟨0, 0, 0, 1⟩) := by
  constructor
  · decide
  · rw [ss_handle_item]
    norm_num [timeDif]

/-- C6 (amended): the spawn-scan worker scans a dequeued job iff
`timeDif(now, spawntime) < 840` (strictly less than 14 minutes stale); a job
whose staleness is at least 840 seconds is discarded without positioning or
scanning, and the skipped counter is incremented by exactly one. -/
theorem ss_handle_item_spec (now spawntime : ℤ) (st : WStatus) :
    (timeDif now spawntime < 840 →
      ss_handle_item now spawntime st = (SSAction.scanned, st)) ∧
    (840 ≤ timeDif now spawntime →
      ss_handle_item now spawntime st =
        (SSAction.skipped, { st with skip := st.skip + 1 })) := by
  constructor <;> intro h <;> rw [ss_handle_item]
  · simp [h]
  · have : ¬ timeDif now spawntime < 840 := by omega
    simp [this]

/-- Witness for `ss_handle_item_spec`: a job 20 minutes (1200 seconds) stale is
skipped and bumps the skip counter from 0 to 1 (spec Scenario 4). -/
theorem ss_handle_item_spec_witness :
    ss_handle_item 1200 0 ⟨0, 0, 0, 0⟩ = (SSAction.skipped, ⟨0, 0, 0, 1⟩) :=
  (ss_handle_item_spec 1200 0 ⟨0, 0, 0, 0⟩).2 (by decide)

/-! ### Step generator: counting lemmas -/

/-- Folding a step that appends exactly one yielded point per loop iteration
grows the accumulated output by the length of the iteration space. -/
theorem foldl_emit_length {α β γ : Type} (f : α → β → α) (g : α → β → γ) :
    ∀ (l : List β) (a : α) (ys : List γ),
      ((l.foldl (fun acc d => (f acc.1 d, acc.2 ++ [g acc.1 d])) (a, ys)).2).length
        = ys.length + l.length := by
  intro l
  induction l with
  | nil => intro a ys; simp
  | cons d l ih =>
    intro a ys
    simp only [List.foldl_cons, List.length_cons]
    rw [ih]
    simp
    omega

theorem ringPoints_length (gnc : ℚ × ℚ → ℚ → ℚ → ℚ × ℚ) (xdist ydist : ℚ)
    (loc : ℚ × ℚ) (ring : ℕ) :
    (ringPoints gnc xdist ydist loc ring).2.length = 6 * ring := by
  unfold ringPoints
  rw [foldl_emit_length (fun a d => dirStep gnc xdist ydist d a)
    (fun a d => ((dirStep gnc xdist ydist d a).1, (dirStep gnc xdist ydist d a).2, 0))]
  simp [List.length_flatMap, Function.comp_def, List.sum_replicate]
  omega

theorem ringLoop_length (gnc : ℚ × ℚ → ℚ → ℚ → ℚ × ℚ) (xdist ydist : ℚ) :
    ∀ (n ring k : ℕ) (loc : ℚ × ℚ), k - ring ≤ n → 1 ≤ ring → ring ≤ k →
      (ringLoop gnc xdist ydist loc ring k).length + 3 * (ring * (ring - 1))
        = 3 * (k * (k - 1)) := by
  intro n
  induction n with
  | zero =>
    intro ring k loc h1 h2 h3
    have hr : ring = k := by omega
    rw [ringLoop]
    have : ¬ ring < k := by omega
    simp [this, hr]
  | succ n ih =>
    intro ring k loc h1 h2 h3
    by_cases hlt : ring < k
    · rw [ringLoop]
      simp only [if_pos hlt, List.length_append]
      rw [ringPoints_length]
      have hih := ih (ring + 1) k (ringPoints gnc xdist ydist loc ring).1
        (by omega) (by omega) (by omega)
      obtain ⟨r, rfl⟩ : ∃ r, ring = r + 1 := ⟨ring - 1, by omega⟩
      simp only [Nat.add_sub_cancel] at hih ⊢
      nlinarith [hih]
    · rw [ringLoop]
      have hr : ring = k := by omega
      simp [hlt, hr]

/-- C8: for every center `C`, every ring count `k ≥ 1` and every step
distance, `generate_location_steps` yields exactly `1 + 3k(k-1)` locations,
and the first yielded location is the center itself (as `(lat, lng, 0)`).
The great-circle step `gnc` and the constant `sqrt3` are universally
quantified, so the count holds for the real trigonometric projection in
particular. -/
theorem generate_location_steps_spec (gnc : ℚ × ℚ → ℚ → ℚ → ℚ × ℚ)
    (sqrt3 : ℚ) (C : ℚ × ℚ) (k : ℕ) (d : ℚ) (hk : 1 ≤ k) :
    (generate_location_steps gnc sqrt3 C k d).length = 1 + 3 * (k * (k - 1)) ∧
    (generate_location_steps gnc sqrt3 C k d).head? = some (C.1, C.2, 0) := by
  constructor
  · simp only [generate_location_steps, List.length_cons]
    have h := ringLoop_length gnc (sqrt3 * d) (3 * (d / 2)) (k - 1) 1 k C
      (by omega) (by omega) hk
    simp at h
    omega
  · rfl

/-- Witness for `generate_location_steps_spec`: spec Scenario 1, ring count 2
gives exactly `1 + 3·2·1 = 7` steps and starts at the center `(0, 0)`. -/
theorem generate_location_steps_spec_witness :
    (generate_location_steps (fun l _ _ => l) 0 (0, 0) 2 (7/100)).length = 7 ∧
    (generate_location_steps (fun l _ _ => l) 0 (0, 0) 2 (7/100)).head? =
      some (0, 0, 0) := by
  have h := generate_location_steps_spec (fun l _ _ => l) 0 (0, 0) 2 (7/100)
    (by decide)
  simpa using h

/-! ### `SbSearch`: range and correctness lemmas -/

theorem sbAux_bounds (ts : List ℚ) (T : ℚ) :
    ∀ (n first last : ℕ), last - first ≤ n → first ≤ last →
      first ≤ sbAux ts T first last ∧ sbAux ts T first last ≤ last := by
  intro n
  induction n with
  | zero =>
    intro first last h1 h2
    rw [sbAux]
    have : ¬ first < last := by omega
    simp [this]
    omega
  | succ n ih =>
    intro first last h1 h2
    rw [sbAux]
    by_cases hlt : first < last
    · simp only [if_pos hlt]
      have hmp1 : first ≤ (first + last) / 2 := by omega
      have hmp2 : (first + last) / 2 < last := by omega
      by_cases hc : ts.getD ((first + last) / 2) 0 < T
      · simp only [if_pos hc]
        have := ih ((first + last) / 2 + 1) last (by omega) (by omega)
        omega
      · simp only [if_neg hc]
        have := ih first ((first + last) / 2) (by omega) (by omega)
        omega
    · simp [hlt]
      omega

theorem sbAux_all_lt (ts : List ℚ) (T : ℚ) :
    ∀ (n first last : ℕ), last - first ≤ n → first ≤ last →
      (∀ i, first ≤ i → i ≤ last → ts.getD i 0 < T) →
      sbAux ts T first last = last := by
  intro n
  induction n with
  | zero =>
    intro first last h1 h2 _
    rw [sbAux]
    have : ¬ first < last := by omega
    simp [this]
    omega
  | succ n ih =>
    intro first last h1 h2 hall
    rw [sbAux]
    by_cases hlt : first < last
    · simp only [if_pos hlt]
      have hmp1 : first ≤ (first + last) / 2 := by omega
      have hmp2 : (first + last) / 2 < last := by omega
      have hc : ts.getD ((first + last) / 2) 0 < T := hall _ (by omega) (by omega)
      simp only [if_pos hc]
      exact ih ((first + last) / 2 + 1) last (by omega) (by omega)
        (fun i hi1 hi2 => hall i (by omega) hi2)
    · simp [hlt]
      omega

theorem sbAux_spec (ts : List ℚ) (T : ℚ)
    (hsorted : ∀ i j, i ≤ j → j < ts.length → ts.getD i 0 ≤ ts.getD j 0) :
    ∀ (n first last : ℕ), last - first ≤ n → first ≤ last → last < ts.length →
      (∀ i, i < first → ts.getD i 0 < T) → T ≤ ts.getD last 0 →
      T ≤ ts.getD (sbAux ts T first last) 0 ∧
        ∀ i, i < sbAux ts T first last → ts.getD i 0 < T := by
  intro n
  induction n with
  | zero =>
    intro first last h1 h2 hlen hbelow habove
    rw [sbAux]
    have hne : ¬ first < last := by omega
    have hfl : first = last := by omega
    rw [if_neg hne, hfl]
    exact ⟨habove, fun i hi => hbelow i (by omega)⟩
  | succ n ih =>
    intro first last h1 h2 hlen hbelow habove
    rw [sbAux]
    by_cases hlt : first < last
    · simp only [if_pos hlt]
      have hmp1 : first ≤ (first + last) / 2 := by omega
      have hmp2 : (first + last) / 2 < last := by omega
      by_cases hc : ts.getD ((first + last) / 2) 0 < T
      · simp only [if_pos hc]
        refine ih ((first + last) / 2 + 1) last (by omega) (by omega) hlen ?_ habove
        intro i hi
        exact lt_of_le_of_lt (hsorted i ((first + last) / 2) (by omega) (by omega)) hc
      · simp only [if_neg hc]
        exact ih first ((first + last) / 2) (by omega) (by omega) (by omega)
          hbelow (le_of_not_lt hc)
    · rw [if_neg hlt]
      have hfl : first = last := by omega
      rw [hfl]
      exact ⟨habove, fun i hi => hbelow i (by omega)⟩

/-- C7: on a nonempty list of schedule times sorted ascending that contains at
least one entry with time `≥ T`, `SbSearch` returns the smallest index whose
entry is `≥ T`: the returned index is in range, its entry is `≥ T`, and every
earlier entry is `< T`. -/
theorem SbSearch_finds_least (ts : List ℚ) (T : ℚ) (hne : ts ≠ [])
    (hsorted : List.Pairwise (· ≤ ·) ts)
    (hex : ∃ i, i < ts.length ∧ T ≤ ts.getD i 0) :
    SbSearch ts T < ts.length ∧
      T ≤ ts.getD (SbSearch ts T) 0 ∧
      ∀ j, j < SbSearch ts T → ts.getD j 0 < T := by
  have hlen : 0 < ts.length := List.length_pos.mpr hne
  have hmono : ∀ i j, i ≤ j → j < ts.length → ts.getD i 0 ≤ ts.getD j 0 := by
    intro i j hij hj
    rcases eq_or_lt_of_le hij with rfl | hij
    · exact le_refl _
    · have hi : i < ts.length := lt_trans hij hj
      rw [List.getD_eq_getElem ts 0 hi, List.getD_eq_getElem ts 0 hj]
      exact List.pairwise_iff_getElem.mp hsorted i j hi hj hij
  have hlast : T ≤ ts.getD (ts.length - 1) 0 := by
    obtain ⟨i, hi, hTi⟩ := hex
    exact le_trans hTi (hmono i (ts.length - 1) (by omega) (by omega))
  have hb := sbAux_bounds ts T (ts.length - 1) 0 (ts.length - 1) (by omega) (by omega)
  have hs := sbAux_spec ts T hmono (ts.length - 1) 0 (ts.length - 1)
    (by omega) (by omega) (by omega) (fun i hi => absurd hi (Nat.not_lt_zero i)) hlast
  exact ⟨by unfold SbSearch; omega, hs.1, hs.2⟩

/-- Witness for `SbSearch_finds_least`: on `[10, 20, 30]` with `T = 15` the
search returns index 1, the first entry `≥ 15`. -/
theorem SbSearch_finds_least_witness :
    SbSearch [10, 20, 30] 15 < 3 ∧
      (15 : ℚ) ≤ ([10, 20, 30] : List ℚ).getD (SbSearch [10, 20, 30] 15) 0 ∧
      ∀ j, j < SbSearch [(10 : ℚ), 20, 30] 15 →
        ([10, 20, 30] : List ℚ).getD j 0 < 15 := by
  have h := SbSearch_finds_least [10, 20, 30] 15 (by simp)
    (by norm_num) ⟨2, by norm_num⟩
  simpa using h

/-- C10: on every nonempty list `SbSearch` returns an index within
`[0, length - 1]`, and when every entry is strictly below the threshold it
returns the final index `length - 1`, never an out-of-range value. -/
theorem SbSearch_in_range (ts : List ℚ) (T : ℚ) (hne : ts ≠ []) :
    SbSearch ts T ≤ ts.length - 1 ∧
      ((∀ i, i < ts.length → ts.getD i 0 < T) → SbSearch ts T = ts.length - 1) := by
  have hlen : 0 < ts.length := List.length_pos.mpr hne
  constructor
  · exact (sbAux_bounds ts T (ts.length - 1) 0 (ts.length - 1) (by omega) (by omega)).2
  · intro hall
    exact sbAux_all_lt ts T (ts.length - 1) 0 (ts.length - 1) (by omega) (by omega)
      (fun i _ hi => hall i (by omega))

/-- Witness for `SbSearch_in_range`: with every entry of `[10, 20, 30]` below
`T = 99` the search returns the last index, 2. -/
theorem SbSearch_in_range_witness :
    SbSearch [10, 20, 30] 99 ≤ 2 ∧ SbSearch [10, 20, 30] 99 = 2 := by
  have h := SbSearch_in_range [10, 20, 30] 99 (by simp)
  have hall : ∀ i, i < ([10, 20, 30] : List ℚ).length →
      ([10, 20, 30] : List ℚ).getD i 0 < 99 := by
    intro i hi
    simp at hi
    interval_cases i <;> norm_num
  exact ⟨by simpa using h.1, by simpa using h.2 hall⟩

/-! ### The assigner: counterexamples -/

/-- The separation invariant claimed for a per-worker schedule: circularly
consecutive committed scan times are at least `scan_delay` apart (gaps taken
forward, modulo the hour), unless the schedule holds at most one point. -/
def circGapsOK (scan_delay : ℚ) (q : List Spawn) : Bool :=
  decide (q.length ≤ 1) ||
    (List.range q.length).all (fun idx =>
      decide (scan_delay ≤
        qmod ((getQ q ((idx + 1) % q.length)).time - (getQ q idx).time) 3600))

/-- Three equatorial spawn points (longitudes 0, 0.025 and 0.018 degrees, i.e.
0 m, 2500 m and 1800 m along the equator under `lngDist`), with natural times
0, 150 and 200 seconds past the hour.  Every inequality in the run below holds
with a wide margin, so the violation does not depend on the exact
metres-per-degree constant of the distance model. -/
def spawnsC1 : List Spawn :=
  [⟨0, 0, 0, none⟩, ⟨0, 1/40, 150, none⟩, ⟨0, 9/500, 200, none⟩]

/-- C1 counterexample: with one worker, `scan_delay = 100`, `max_speed = 10`,
`max_delay = 1000`, `greedy_assign` commits all three points of `spawnsC1` to
the sole worker at times 0, 200 and 250: the point with natural time 150 is
2500 m from the first, needing speed 16.7 > 10, so it is wiggled by
`time2wait = 2500/10 - 150 = 100` to time 250; the point with natural time
200 is then accepted between times 0 and 250 (approach speed 1800/200 = 9,
departure speed 700/100 = 7, both under `max_speed`) because only its speeds
are checked, never its time gap to the successor.  The resulting schedule has
consecutive committed times 200 and 250, only 50 seconds apart — half of
`scan_delay = 100` — on a queue of three points, refuting the claimed
circular-separation invariant. -/
theorem assigner_gap_counterexample :
    (greedy_assign lngDist 100 10 1000 spawnsC1 1).1 =
      [[⟨0, 0, 0, none⟩, ⟨0, 9/500, 200, none⟩, ⟨0, 1/40, 250, none⟩]] ∧
    (greedy_assign lngDist 100 10 1000 spawnsC1 1).2.2 = [] ∧
    circGapsOK 100 [⟨0, 0, 0, none⟩, ⟨0, 9/500, 200, none⟩, ⟨0, 1/40, 250, none⟩]
      = false := by
  refine ⟨?_, ?_, ?_⟩ <;> with_unfolding_all decide

/-- Two spawn points 100 m apart on the equator with natural times 0 and 1. -/
def spawnsC4 : List Spawn := [⟨0, 0, 0, none⟩, ⟨0, 1/1000, 1, none⟩]

/-- C4 counterexample: with one worker, `scan_delay = 100`, `max_speed = 10`
and `max_delay = 10`, `assign_spawns` commits the point with natural time 1
(the one at longitude `1/1000`) at time 100: the clamp
`sp['time'] = max(sp['time'], pred['time'] + scan_delay)` shifts it by 99
seconds, yet the recorded delay is 0, so the `delay <= max_delay` test passes
and the point is NOT rejected even though its committed time exceeds its
natural time by far more than `max_delay = 10`. -/
theorem assigner_shift_counterexample :
    assign_spawns lngDist spawnsC4 1 100 10 10 =
      [⟨0, 0, 0, some 0⟩, ⟨0, 1/1000, 100, some 0⟩] ∧
    ¬((100 : ℚ) - 1 ≤ 10) := by
  constructor
  · with_unfolding_all decide
  · norm_num

/-! ### The assigner: commit-time analysis of `insert` -/

theorem qmod_eq_self {x m : ℚ} (h0 : 0 ≤ x) (hm : x < m) : qmod x m = x := by
  unfold qmod
  have hmpos : 0 < m := lt_of_le_of_lt h0 hm
  have hfl : ⌊x / m⌋ = 0 := by
    rw [Int.floor_eq_zero_iff, Set.mem_Ico]
    exact ⟨div_nonneg h0 hmpos.le, (div_lt_one hmpos).mpr hm⟩
  rw [hfl]
  simp

theorem getQ_insertIdx_self (q : List Spawn) (k : ℕ) (a : Spawn)
    (hk : k ≤ q.length) : getQ (q.insertIdx k a) k = a := by
  have hlt : k < (q.insertIdx k a).length := by
    rw [List.length_insertIdx _ _ hk]
    omega
  unfold getQ
  rw [List.getD_eq_getElem _ _ hlt]
  exact List.getElem_insertIdx_self q a k hk

theorem getQ_mem (q : List Spawn) (i : ℕ) (hi : i < q.length) : getQ q i ∈ q := by
  unfold getQ
  rw [List.getD_eq_getElem _ _ hi]
  exact List.getElem_mem hi

theorem insertSlot_le_length (q : List Spawn) (sp : Spawn) :
    insertSlot q sp ≤ q.length := by
  unfold insertSlot
  exact List.findIdx_le_length _

/-- C4 (amended): whenever the greedy pass commits a point to a nonempty
worker queue (its insertion cost `delay` satisfies `delay ≤ max_delay`), the
committed scan time is exactly
`max(natural_time, predecessor_time + scan_delay) + delay` with
`delay ≤ max_delay`: only the wiggle delay is bounded by `max_delay`; the
clamp to `scan_delay` past the predecessor is not counted in `delay`, so the
total shift from the natural time may exceed `max_delay`
(`assigner_shift_counterexample`). -/
theorem insert_commit_shift (dist : Spawn → Spawn → ℚ) (sd ms md : ℚ)
    (q : List Spawn) (sp : Spawn) (hq : q ≠ [])
    (hcommit : (insert dist sd ms q sp).1.1 ≤ ((md : ℚ) : WithTop ℚ)) :
    ∃ w : ℚ, (insert dist sd ms q sp).1.1 = ((w : ℚ) : WithTop ℚ) ∧ w ≤ md ∧
      (getQ (insert dist sd ms q sp).2 (insertSlot q sp)).time
        = max sp.time ((getQ q (predIdx q sp)).time + sd) + w := by
  have hlen : ¬ q.length = 0 := by simpa using hq
  have hk := insertSlot_le_length q sp
  rw [insert] at hcommit ⊢
  rw [if_neg hlen] at hcommit ⊢
  simp only at hcommit ⊢
  split_ifs at hcommit ⊢ with h1 h2 h3 h4
  · simp at hcommit
  · dsimp only at hcommit ⊢
    refine ⟨0, rfl, ?_, ?_⟩
    · exact_mod_cast hcommit
    · rw [getQ_insertIdx_self q (insertSlot q sp) _ hk]
      simp
  · simp at hcommit
  · simp at hcommit
  · dsimp only at hcommit ⊢
    refine ⟨_, rfl, ?_, ?_⟩
    · exact_mod_cast hcommit
    · rw [getQ_insertIdx_self q (insertSlot q sp) _ hk]

/-- Witness for `insert_commit_shift`: a one-element queue `[time 0]`,
`scan_delay = 10`, `max_speed = 5`, `max_delay = 100`, and a new point with
natural time 50 at the same place: committed at `max(50, 0 + 10) + 0 = 50`. -/
theorem insert_commit_shift_witness :
    ∃ w : ℚ,
      (insert zeroDist 10 5 [⟨0, 0, 0, none⟩] ⟨0, 0, 50, none⟩).1.1
          = ((w : ℚ) : WithTop ℚ) ∧
        w ≤ 100 ∧
        (getQ (insert zeroDist 10 5 [⟨0, 0, 0, none⟩] ⟨0, 0, 50, none⟩).2
            (insertSlot [⟨0, 0, 0, none⟩] ⟨0, 0, 50, none⟩)).time
          = max (50 : ℚ)
              ((getQ [⟨0, 0, 0, none⟩]
                  (predIdx [⟨0, 0, 0, none⟩] ⟨0, 0, 50, none⟩)).time + 10) + w :=
  insert_commit_shift zeroDist 10 5 100 [⟨0, 0, 0, none⟩] ⟨0, 0, 50, none⟩
    (by simp) (by with_unfolding_all decide)

/-- C1 (amended): at the moment of insertion, every committed point is placed
at least `scan_delay` after its circular predecessor in the worker queue
(`sp['time'] = max(sp['time'], queue[i]['time'] + scan_delay)`, plus a
nonnegative wiggle delay); the gap to the circular successor is NOT enforced
and can end up smaller than `scan_delay` (`assigner_gap_counterexample`).
Hypotheses: queue times are nonnegative, the natural time is in `[0, 3600)`,
`scan_delay ∈ [0, 3600)`, `max_speed > 0` and the distance function is
nonnegative — all true of the real inputs. -/
theorem insert_commit_pred_gap (dist : Spawn → Spawn → ℚ) (sd ms : ℚ)
    (q : List Spawn) (sp : Spawn) (hq : q ≠ [])
    (hqt : ∀ p ∈ q, 0 ≤ p.time)
    (hsp0 : 0 ≤ sp.time) (hsp1 : sp.time < 3600)
    (hsd0 : 0 ≤ sd) (hsd1 : sd < 3600)
    (hms : 0 < ms)
    (hdist : ∀ a b, 0 ≤ dist a b)
    (hcommit : (insert dist sd ms q sp).1.1 ≠ ⊤) :
    (getQ q (predIdx q sp)).time + sd
      ≤ (getQ (insert dist sd ms q sp).2 (insertSlot q sp)).time := by
  have hlen : ¬ q.length = 0 := by simpa using hq
  have hk := insertSlot_le_length q sp
  have hpredmem : getQ q (predIdx q sp) ∈ q := by
    refine getQ_mem q _ ?_
    exact Nat.mod_lt _ (by omega)
  have hP0 : 0 ≤ (getQ q (predIdx q sp)).time := hqt _ hpredmem
  rw [insert] at hcommit ⊢
  rw [if_neg hlen] at hcommit ⊢
  simp only at hcommit ⊢
  split_ifs at hcommit ⊢ with h1 h2 h3 h4
  · simp at hcommit
  · dsimp only at hcommit ⊢
    rw [getQ_insertIdx_self q (insertSlot q sp) _ hk]
    exact le_max_right _ _
  · simp at hcommit
  · simp at hcommit
  · dsimp only at hcommit ⊢
    rw [getQ_insertIdx_self q (insertSlot q sp) _ hk]
    dsimp only
    -- the wiggle branch: show the added time2wait is nonnegative
    set P := getQ q (predIdx q sp) with hPdef
    set ct := max sp.time (P.time + sd) with hct
    have hct1 : P.time + sd ≤ ct := le_max_right _ _
    have hdelta0 : 0 ≤ ct - P.time := by
      linarith [le_max_right sp.time (P.time + sd)]
    have hdelta1 : ct - P.time < 3600 := by
      rw [hct, sub_lt_iff_lt_add]
      apply max_lt <;> linarith
    have hdelta2 : sd ≤ ct - P.time := by
      linarith [le_max_right sp.time (P.time + sd)]
    -- s2 ≤ max_speed and ¬(s1 ≤ max_speed) from the branch conditions
    have hs1 : (ms : WithTop ℚ) <
        speed dist sd P { sp with time := ct } := by
      rcases not_and_or.mp h2 with h | h
      · exact lt_of_not_le h
      · exact absurd (le_of_not_lt h3) h
    have ht2w : 0 ≤ dist P { sp with time := ct } / ms - (ct - P.time) := by
      rw [speed] at hs1
      dsimp only at hs1
      have hqm : qmod (ct - P.time) 3600 = ct - P.time :=
        qmod_eq_self hdelta0 hdelta1
      rw [hqm, max_eq_left hdelta2] at hs1
      by_cases hz : ct - P.time = 0
      · rw [hz]
        have := div_nonneg (hdist P { sp with time := ct }) hms.le
        linarith
      · rw [if_neg hz] at hs1
        have hpos : 0 < ct - P.time := lt_of_le_of_ne hdelta0 (Ne.symm hz)
        have hlt : ms < dist P { sp with time := ct } / (ct - P.time) := by
          exact_mod_cast hs1
        have hmul : ms * (ct - P.time) < dist P { sp with time := ct } :=
          (lt_div_iff₀ hpos).mp hlt
        have hdm : ct - P.time < dist P { sp with time := ct } / ms := by
          rw [lt_div_iff₀ hms]
          linarith [mul_comm ms (ct - P.time)]
        linarith
    linarith [hct1, ht2w]

/-- Witness for `insert_commit_pred_gap`: the same configuration as
`insert_commit_shift_witness`; the committed time 50 is at least
`0 + scan_delay = 10` after the predecessor. -/
theorem insert_commit_pred_gap_witness :
    (getQ [⟨0, 0, 0, none⟩] (predIdx [⟨0, 0, 0, none⟩] ⟨0, 0, 50, none⟩)).time + 10
      ≤ (getQ (insert zeroDist 10 5 [⟨0, 0, 0, none⟩] ⟨0, 0, 50, none⟩).2
          (insertSlot [⟨0, 0, 0, none⟩] ⟨0, 0, 50, none⟩)).time :=
  insert_commit_pred_gap zeroDist 10 5 [⟨0, 0, 0, none⟩] ⟨0, 0, 50, none⟩
    (by simp)
    (by intro p hp; simp at hp; subst hp; norm_num)
    (by norm_num) (by norm_num) (by norm_num) (by norm_num) (by norm_num)
    (fun a b => le_refl 0)
    (by with_unfolding_all decide)

/-! ### The assigner: partition of the input (C9) -/

/-- The identity of a spawn point: its coordinates (the assigner may shift
`time` and sets `worker`, but never touches `lat`/`lng`). -/
def key (sp : Spawn) : ℚ × ℚ := (sp.lat, sp.lng)

theorem insertIdx_perm {α : Type} (a : α) :
    ∀ (k : ℕ) (l : List α), k ≤ l.length → (l.insertIdx k a).Perm (a :: l)
  | 0, l, _ => by simp
  | k + 1, [], h => by simp at h
  | k + 1, b :: l, h => by
    simp only [List.insertIdx_succ_cons]
    exact ((insertIdx_perm a k l (by simpa using h)).cons b).trans
      (List.Perm.swap a b l)

/-- A committed `insert` (finite cost) adds to the queue exactly one copy of
`sp` — same coordinates, possibly shifted time. -/
theorem insert_commit_queue (dist : Spawn → Spawn → ℚ) (sd ms : ℚ)
    (q : List Spawn) (sp : Spawn)
    (h : (insert dist sd ms q sp).1.1 ≠ ⊤) :
    ∃ sp2, key sp2 = key sp ∧ ((insert dist sd ms q sp).2).Perm (sp2 :: q) := by
  rw [insert] at h ⊢
  by_cases hlen : q.length = 0
  · rw [if_pos hlen] at h ⊢
    have hq : q = [] := List.length_eq_zero.mp hlen
    subst hq
    exact ⟨sp, rfl, by simp⟩
  · rw [if_neg hlen] at h ⊢
    simp only at h ⊢
    split_ifs at h ⊢ with h1 h2 h3 h4
    · simp at h
    · refine ⟨_, ?_, insertIdx_perm _ _ _ (insertSlot_le_length q sp)⟩
      rfl
    · simp at h
    · simp at h
    · refine ⟨_, ?_, insertIdx_perm _ _ _ (insertSlot_le_length q sp)⟩
      rfl

/-- A skipped `insert` (infinite cost) leaves the queue unchanged. -/
theorem insert_skip_queue (dist : Spawn → Spawn → ℚ) (sd ms : ℚ)
    (q : List Spawn) (sp : Spawn)
    (h : (insert dist sd ms q sp).1.1 = ⊤) :
    (insert dist sd ms q sp).2 = q := by
  rw [insert] at h ⊢
  by_cases hlen : q.length = 0
  · rw [if_pos hlen] at h
    simp at h
  · rw [if_neg hlen] at h ⊢
    simp only at h ⊢
    split_ifs at h ⊢ with h1 h2 h3 h4
    · rfl
    · simp at h
    · rfl
    · rfl
    · simp at h

theorem flatten_set_cons_perm {α : Type} :
    ∀ (Q : List (List α)) (i : ℕ) (q2 : List α) (a : α), i < Q.length →
      q2.Perm (a :: Q.getD i []) → ((Q.set i q2).flatten).Perm (a :: Q.flatten) := by
  intro Q
  induction Q with
  | nil => intro i q2 a hi _; simp at hi
  | cons Q0 Qt ih =>
    intro i q2 a hi hp
    cases i with
    | zero =>
      simp only [List.getD_cons_zero] at hp
      simp only [List.set_cons_zero, List.flatten_cons]
      have h1 : (q2 ++ Qt.flatten).Perm ((a :: Q0) ++ Qt.flatten) :=
        hp.append_right _
      simpa using h1
    | succ m =>
      simp only [List.getD_cons_succ] at hp
      simp only [List.set_cons_succ, List.flatten_cons]
      have h2 := ih m q2 a (by simpa using hi) hp
      exact (h2.append_left Q0).trans List.perm_middle

theorem minFold_some : ∀ (l : List (Score × ℕ)) (acc : Option (Score × ℕ))
    (x : Score × ℕ), l.foldl minFold acc = some x → x ∈ l ∨ acc = some x := by
  intro l
  induction l with
  | nil => intro acc x h; right; exact h
  | cons a l ih =>
    intro acc x h
    simp only [List.foldl_cons] at h
    rcases ih _ x h with hx | hx
    · left; exact List.mem_cons_of_mem _ hx
    · cases acc with
      | none =>
        simp only [minFold] at hx
        injection hx with hx
        left
        rw [← hx]
        exact List.mem_cons_self _ _
      | some best =>
        simp only [minFold] at hx
        by_cases hlt : scoredLt a best
        · rw [if_pos hlt] at hx
          injection hx with hx
          left
          rw [← hx]
          exact List.mem_cons_self _ _
        · rw [if_neg hlt] at hx
          right
          exact hx

theorem minScored_mem (l : List (Score × ℕ)) (x : Score × ℕ)
    (h : minScored l = some x) : x ∈ l := by
  rcases minFold_some l none x h with hx | hx
  · exact hx
  · exact absurd hx (by simp)

/-- One `greedy_assign` iteration accounts for `sp` exactly once: the
coordinate multiset of (queued points ++ rejected points) grows by exactly
`key sp`, and the number of worker queues never changes. -/
theorem greedyStep_keys_perm (dist : Spawn → Spawn → ℚ) (sd ms md : ℚ)
    (st : List (List Spawn) × List (WithTop ℚ) × List Spawn) (sp : Spawn) :
    ((((greedyStep dist sd ms md st sp).1.flatten
        ++ (greedyStep dist sd ms md st sp).2.2).map key)).Perm
      (((st.1.flatten ++ st.2.2).map key) ++ [key sp]) := by
  obtain ⟨Q, delays, bad⟩ := st
  simp only [greedyStep]
  cases hmin : minScored ((List.range Q.length).map
      (fun i => ((insert dist sd ms (Q.getD i []) sp).1, i))) with
  | none =>
    dsimp only
    rw [← List.append_assoc, List.map_append]
    exact List.Perm.refl _
  | some m =>
    dsimp only
    by_cases hle : m.1.1 ≤ ((md : ℚ) : WithTop ℚ)
    · rw [if_pos hle]
      dsimp only
      -- committed: Q[m.2] gains one copy of sp
      have hm := minScored_mem _ _ hmin
      simp only [List.mem_map, List.mem_range] at hm
      obtain ⟨i, hi, rfl⟩ := hm
      dsimp only at hle ⊢
      have hne : (insert dist sd ms (Q.getD i []) sp).1.1 ≠ ⊤ :=
        ne_top_of_le_ne_top WithTop.coe_ne_top hle
      obtain ⟨sp2, hkey, hperm⟩ := insert_commit_queue dist sd ms (Q.getD i []) sp hne
      have hflat := flatten_set_cons_perm Q i _ sp2 hi hperm
      have step1 : ((Q.set i (insert dist sd ms (Q.getD i []) sp).2).flatten
          ++ bad).Perm ((sp2 :: Q.flatten) ++ bad) := hflat.append_right bad
      refine (step1.map key).trans ?_
      simp only [List.cons_append, List.map_cons]
      rw [hkey]
      exact (List.perm_append_singleton _ _).symm
    · -- rejected: sp goes to bad
      rw [if_neg hle]
      dsimp only
      rw [← List.append_assoc, List.map_append]
      exact List.Perm.refl _

theorem greedyStep_length (dist : Spawn → Spawn → ℚ) (sd ms md : ℚ)
    (st : List (List Spawn) × List (WithTop ℚ) × List Spawn) (sp : Spawn) :
    (greedyStep dist sd ms md st sp).1.length = st.1.length := by
  obtain ⟨Q, delays, bad⟩ := st
  simp only [greedyStep]
  cases hmin : minScored ((List.range Q.length).map
      (fun i => ((insert dist sd ms (Q.getD i []) sp).1, i))) with
  | none => rfl
  | some m =>
    dsimp only
    by_cases hle : m.1.1 ≤ ((md : ℚ) : WithTop ℚ)
    · rw [if_pos hle]
      simp
    · rw [if_neg hle]

theorem greedy_fold_keys (dist : Spawn → Spawn → ℚ) (sd ms md : ℚ) :
    ∀ (l : List Spawn) (st : List (List Spawn) × List (WithTop ℚ) × List Spawn),
      (((l.foldl (greedyStep dist sd ms md) st).1.flatten
          ++ (l.foldl (greedyStep dist sd ms md) st).2.2).map key).Perm
        (((st.1.flatten ++ st.2.2).map key) ++ l.map key) := by
  intro l
  induction l with
  | nil => intro st; simp
  | cons sp l ih =>
    intro st
    simp only [List.foldl_cons, List.map_cons]
    refine (ih (greedyStep dist sd ms md st sp)).trans ?_
    refine ((greedyStep_keys_perm dist sd ms md st sp).append_right (l.map key)).trans ?_
    rw [List.append_assoc, List.singleton_append]

theorem greedy_fold_length (dist : Spawn → Spawn → ℚ) (sd ms md : ℚ) :
    ∀ (l : List Spawn) (st : List (List Spawn) × List (WithTop ℚ) × List Spawn),
      (l.foldl (greedyStep dist sd ms md) st).1.length = st.1.length := by
  intro l
  induction l with
  | nil => intro st; rfl
  | cons sp l ih =>
    intro st
    simp only [List.foldl_cons]
    rw [ih (greedyStep dist sd ms md st sp), greedyStep_length]

theorem flatten_replicate_nil {α : Type} (n : ℕ) :
    (List.replicate n ([] : List α)).flatten = [] := by
  induction n with
  | zero => rfl
  | succ n ih => simp [List.replicate_succ, ih]

/-- `greedy_assign` accounts for every input point exactly once: the multiset
of coordinates of (all queued points ++ all rejected points) equals the
multiset of input coordinates. -/
theorem greedy_assign_keys (dist : Spawn → Spawn → ℚ) (sd ms md : ℚ)
    (spawns : List Spawn) (n : ℕ) :
    (((greedy_assign dist sd ms md spawns n).1.flatten
        ++ (greedy_assign dist sd ms md spawns n).2.2).map key).Perm
      (spawns.map key) := by
  rw [greedy_assign]
  refine (greedy_fold_keys dist sd ms md (sortByTime spawns)
    (List.replicate n [], [], [])).trans ?_
  simp only [flatten_replicate_nil, List.nil_append, List.map_nil]
  exact (List.perm_insertionSort _ spawns).map key

theorem greedy_assign_num_queues (dist : Spawn → Spawn → ℚ) (sd ms md : ℚ)
    (spawns : List Spawn) (n : ℕ) :
    (greedy_assign dist sd ms md spawns n).1.length = n := by
  rw [greedy_assign, greedy_fold_length]
  simp

theorem range_map_getD (Q : List (List Spawn)) :
    (List.range Q.length).map (fun i => Q.getD i []) = Q := by
  apply List.ext_getElem
  · simp
  · intro i h1 h2
    simp only [List.getElem_map, List.getElem_range]
    exact List.getD_eq_getElem Q [] h2

theorem tagWorkers_flatten_keys (Q : List (List Spawn)) :
    (tagWorkers Q).flatten.map key = Q.flatten.map key := by
  rw [tagWorkers]
  conv_rhs => rw [← range_map_getD Q]
  generalize List.range Q.length = rs
  induction rs with
  | nil => rfl
  | cons r rs ih =>
    simp only [List.map_cons, List.flatten_cons, List.map_append, ih, List.map_map]
    congr 1

theorem tagWorkers_worker (Q : List (List Spawn)) (sp : Spawn)
    (h : sp ∈ (tagWorkers Q).flatten) : ∃ i, i < Q.length ∧ sp.worker = some i := by
  rw [tagWorkers] at h
  simp only [List.mem_flatten, List.mem_map, List.mem_range] at h
  obtain ⟨l, ⟨i, hi, rfl⟩, hsp⟩ := h
  simp only [List.mem_map] at hsp
  obtain ⟨sp2, _, rfl⟩ := hsp
  exact ⟨i, hi, rfl⟩

instance : IsTotal Spawn (fun a b => a.time ≤ b.time) :=
  ⟨fun a b => le_total a.time b.time⟩

instance : IsTrans Spawn (fun a b => a.time ≤ b.time) :=
  ⟨fun _ _ _ h1 h2 => le_trans h1 h2⟩

theorem sortByTime_sorted (l : List Spawn) :
    List.Pairwise (fun a b => a.time ≤ b.time) (sortByTime l) :=
  List.sorted_insertionSort _ l

/-- C9: `assign_spawns` partitions its input exactly: the coordinate multiset
of the returned merged schedule together with the rejected (`bad`) points is a
permutation of the input coordinate multiset — nothing is duplicated or
silently dropped; the merged schedule is sorted ascending by time; and every
merged point is tagged with the index of a worker in `[0, n)`. -/
theorem assign_spawns_partition (dist : Spawn → Spawn → ℚ) (spawns : List Spawn)
    (n : ℕ) (sd ms md : ℚ) (hn : 1 ≤ n) :
    (((assign_spawns dist spawns n sd ms md).map key)
        ++ ((greedy_assign dist sd ms md spawns n).2.2.map key)).Perm
      (spawns.map key)
    ∧ List.Pairwise (fun a b => a.time ≤ b.time) (assign_spawns dist spawns n sd ms md)
    ∧ ∀ sp ∈ assign_spawns dist spawns n sd ms md, ∃ i, i < n ∧ sp.worker = some i := by
  refine ⟨?_, ?_, ?_⟩
  · have h1 : ((assign_spawns dist spawns n sd ms md).map key).Perm
        ((tagWorkers (greedy_assign dist sd ms md spawns n).1).flatten.map key) := by
      rw [assign_spawns]
      exact (List.perm_insertionSort _ _).map key
    rw [tagWorkers_flatten_keys] at h1
    refine (h1.append_right _).trans ?_
    rw [← List.map_append]
    exact greedy_assign_keys dist sd ms md spawns n
  · rw [assign_spawns]
    exact sortByTime_sorted _
  · intro sp hsp
    rw [assign_spawns] at hsp
    have hmem : sp ∈ (tagWorkers (greedy_assign dist sd ms md spawns n).1).flatten := by
      have := (List.perm_insertionSort
        (fun a b : Spawn => a.time ≤ b.time)
        (tagWorkers (greedy_assign dist sd ms md spawns n).1).flatten).mem_iff.mp hsp
      exact this
    obtain ⟨i, hi, hw⟩ := tagWorkers_worker _ _ hmem
    rw [greedy_assign_num_queues] at hi
    exact ⟨i, hi, hw⟩

/-- Witness for `assign_spawns_partition`: one worker and the single input
point `(0, 0)` at time 5, with `scan_delay = 0`, `max_speed = 1`,
`max_delay = 0`. -/
theorem assign_spawns_partition_witness :
    (((assign_spawns zeroDist [⟨0, 0, 5, none⟩] 1 0 1 0).map key)
        ++ ((greedy_assign zeroDist 0 1 0 [⟨0, 0, 5, none⟩] 1).2.2.map key)).Perm
      (([⟨0, 0, 5, none⟩] : List Spawn).map key)
    ∧ List.Pairwise (fun a b => a.time ≤ b.time)
        (assign_spawns zeroDist [⟨0, 0, 5, none⟩] 1 0 1 0)
    ∧ ∀ sp ∈ assign_spawns zeroDist [⟨0, 0, 5, none⟩] 1 0 1 0,
        ∃ i, i < 1 ∧ sp.worker = some i :=
  assign_spawns_partition zeroDist [⟨0, 0, 5, none⟩] 1 0 1 0 (by decide)

end PogomSearch
